import Mathlib

/-!
Verification of the VRP core solver against its specification.

The development shallowly embeds the relevant parts of the source:
  * `vrp-core/src/construction/constraints/capacity.rs` (capacity module),
  * `vrp-core/src/construction/heuristics/cache.rs` (insertion cache),
  * `vrp-core/src/solver/evolution/run_branches.rs` (branches strategy).

Loads are modelled single-dimensionally as `Int` (the `LoadOps` instance for a
single-dimensional load: `+`/`-` are integer ops, `max_load` is `max`,
`can_fit` is `≤`, `is_not_empty` is `≠ 0`, `ratio` is division).  The `f64`
values (`ratio`, costs) are modelled as exact rationals `ℚ`.  Activity
pointers, which key the per-activity state maps in the source, are modelled by
the activity's tour index.
-/

namespace Capacity

/-- Demand of a single job: `(pickup.0, pickup.1)` are static/dynamic pickup,
`(delivery.0, delivery.1)` are static/dynamic delivery. -/
structure DemandT where
  pickupStatic : Int
  pickupDynamic : Int
  deliveryStatic : Int
  deliveryDynamic : Int
deriving DecidableEq

/-- `Demand::change`: `pickup.0 + pickup.1 - delivery.0 - delivery.1`. -/
def DemandT.change (d : DemandT) : Int :=
  d.pickupStatic + d.pickupDynamic - d.deliveryStatic - d.deliveryDynamic

/-- A `Single` job as the capacity module sees it: its demand dimension,
whether the `MultiTrip` collaborator classifies it as a marker job, and
whether `retrieve_job()` yields a `Multi` job (the single is a piece of a
multi job). -/
structure SingleT where
  demand : Option DemandT
  marker : Bool
  partOfMulti : Bool
deriving DecidableEq

/-- An activity of a tour: it references at most one `Single`. -/
structure ActivityT where
  job : Option SingleT
deriving DecidableEq

/-- `CapacityConstraintModule::get_demand`:
`activity.job.as_ref().and_then(|job| job.dimens.get_demand())`. -/
def get_demand (a : ActivityT) : Option DemandT :=
  a.job.bind (fun s => s.demand)

/-- The demand change of an activity, `0` when it has no demand
(`map(|demand| demand.change()).unwrap_or_else(T::default)`). -/
def chg (a : ActivityT) : Int :=
  ((get_demand a).map DemandT.change).getD 0

/-- The per-route state store owned by the capacity module:
`CURRENT_CAPACITY_KEY`, `MAX_PAST_CAPACITY_KEY`, `MAX_FUTURE_CAPACITY_KEY`
per activity (keyed by tour index) and `MAX_LOAD_KEY` per route. -/
structure RouteState where
  current : Nat → Option Int
  maxPast : Nat → Option Int
  maxFuture : Nat → Option Int
  maxLoad : Option ℚ

/-- `is_not_empty` of a single-dimensional load. -/
def is_not_empty (v : Int) : Bool := v != 0

/-- `can_fit` of a single-dimensional load: the capacity is at least the load. -/
def can_fit (cap other : Int) : Bool := decide (other ≤ cap)

/-- `CapacityConstraintModule::has_demand_violation`.  The pivot activity is
identified by its tour index; missing state values default to `T::default()`
(the source's `unwrap_or(&default)`). -/
def has_demand_violation (st : RouteState) (pivot : Nat) (capacity : Option Int)
    (demand : Option DemandT) (stopped : Bool) : Option Bool :=
  match demand, capacity with
  | none, _ => none
  | some _, none => some stopped
  | some d, some cap =>
    if is_not_empty d.deliveryStatic &&
        ! can_fit cap ((st.maxPast pivot).getD 0 + d.deliveryStatic) then some stopped
    else if is_not_empty d.pickupStatic &&
        ! can_fit cap ((st.maxFuture pivot).getD 0 + d.pickupStatic) then some stopped
    else if is_not_empty d.change &&
        ! can_fit cap ((st.maxFuture pivot).getD 0 + d.change) then some stopped
    else if is_not_empty d.change &&
        ! can_fit cap ((st.current pivot).getD 0 + d.change) then some false
    else none

/-- The route context as the capacity constraints consume it: the state store,
the vehicle's capacity dimension, and the `MultiTrip` collaborator's marker
intervals for this route. -/
structure RouteCtx where
  state : RouteState
  capacity : Option Int
  markerIntervals : Option (List (Nat × Nat))

/-- Modelled from the spec: `has_markers` of the `MultiTrip` collaborator
(not under `src/`).  A committed marker job "defines a new interval boundary",
so a route has markers exactly when it has more than one marker interval. -/
def has_markers (rc : RouteCtx) : Bool :=
  (rc.markerIntervals.map (fun l => decide (1 < l.length))).getD false

/-- `CapacityConstraintModule::can_handle_demand_on_intervals`. -/
def can_handle_demand_on_intervals (rc : RouteCtx) (demand : Option DemandT)
    (insertIdx : Option Nat) : Bool :=
  match rc.markerIntervals with
  | some intervals =>
    match insertIdx with
    | some idx =>
      (intervals.filter (fun iv => decide (idx ≤ iv.2))).all
        (fun iv => (has_demand_violation rc.state (max idx iv.1) rc.capacity demand true).isNone)
    | none =>
      intervals.any
        (fun iv => (has_demand_violation rc.state iv.1 rc.capacity demand true).isNone)
  | none =>
    (has_demand_violation rc.state (insertIdx.getD 0) rc.capacity demand true).isNone

/-- `ActivityConstraintViolation { code, stopped }`. -/
structure ActivityConstraintViolation where
  code : Int
  stopped : Bool
deriving DecidableEq

/-- The activity context of a candidate insertion: `prev`, `target`,
optional `next`, and the insertion index.  `prevIdx` is the tour index of
`prev` (the pivot used for state lookups). -/
structure ActCtx where
  prev : ActivityT
  prevIdx : Nat
  target : ActivityT
  next : Option ActivityT
  index : Nat

/-- `CapacityHardActivityConstraint::evaluate_activity`. -/
def evaluate_activity (code : Int) (rc : RouteCtx) (ac : ActCtx) :
    Option ActivityConstraintViolation :=
  if (ac.target.job.map SingleT.marker).getD false then
    -- NOTE insert reload job in route only as last
    let is_first := ac.prev.job.isNone
    let is_not_last := (ac.next.bind ActivityT.job).isSome
    if is_first || is_not_last then some ⟨code, false⟩ else none
  else
    let demand := get_demand ac.target
    let violation :=
      if (ac.target.job.map SingleT.partOfMulti).getD false then
        -- NOTE multi job has dynamic demand which can go in another interval
        if can_handle_demand_on_intervals rc demand (some ac.index) then none
        else some false
      else
        has_demand_violation rc.state ac.prevIdx rc.capacity demand (! has_markers rc)
    violation.map (fun stopped => ActivityConstraintViolation.mk code stopped)

/-- `CapacitySoftRouteConstraint::estimate_job`: the job's marker verdict is
the `MultiTrip` collaborator's `is_marker_job`; `fixed` is
`ctx.route.actor.vehicle.costs.fixed`. -/
def estimate_job (fixed : ℚ) (isMarkerJob : Bool) : ℚ :=
  if isMarkerJob then 0 - max fixed 1000 else 0

/-- C10: the capacity soft-route estimate is `-(max(fixed, 1000))` for a
marker (reload) job — hence strictly negative — and exactly `0` for every
non-marker job. -/
theorem C10_soft_route_estimate (fixed : ℚ) :
    estimate_job fixed true = 0 - max fixed 1000 ∧
    estimate_job fixed true < 0 ∧
    estimate_job fixed false = 0 := by
  refine ⟨rfl, ?_, rfl⟩
  have h : (1000 : ℚ) ≤ max fixed 1000 := le_max_right _ _
  simp only [estimate_job, if_pos]
  linarith

/-- C5: a marker job is admitted only as the last activity of a route that
already serves a job: a candidate position whose preceding activity carries no
job, or that is followed by an activity carrying a job, is rejected with a
(non-stopped) violation; otherwise it is admitted. -/
theorem C5_marker_only_last (code : Int) (rc : RouteCtx) (ac : ActCtx) (s : SingleT)
    (hjob : ac.target.job = some s) (hm : s.marker = true) :
    (ac.prev.job = none ∨ (ac.next.bind ActivityT.job).isSome = true →
      evaluate_activity code rc ac = some ⟨code, false⟩) ∧
    (ac.prev.job ≠ none → (ac.next.bind ActivityT.job).isSome = false →
      evaluate_activity code rc ac = none) := by
  constructor
  · intro h
    simp only [evaluate_activity, hjob, Option.map_some', hm, Option.getD_some, if_pos]
    rcases h with h | h
    · simp [h]
    · simp [h]
  · intro h1 h2
    simp only [evaluate_activity, hjob, Option.map_some', hm, Option.getD_some, if_pos]
    have h1s : ac.prev.job.isNone = false := by
      cases hp : ac.prev.job with
      | none => exact absurd hp h1
      | some v => rfl
    simp [h1s, h2]

/-- An empty route state store (all values missing). -/
def emptySt : RouteState :=
  { current := fun _ => none, maxPast := fun _ => none, maxFuture := fun _ => none,
    maxLoad := none }

/-- A route context with no capacity dimension and no marker intervals. -/
def rcPlain : RouteCtx := { state := emptySt, capacity := none, markerIntervals := none }

/-- The marker single used by the C5 witness. -/
def markerSingle : SingleT := { demand := none, marker := true, partOfMulti := false }

/-- A candidate position for the C5 witness: the previous activity carries a
job, the next activity is the job-less end activity. -/
def acMarkerLast : ActCtx :=
  { prev := ⟨some ⟨none, false, false⟩⟩, prevIdx := 0,
    target := ⟨some markerSingle⟩, next := some ⟨none⟩, index := 1 }

theorem C5_marker_only_last_witness :
    acMarkerLast.prev.job ≠ none ∧
      (acMarkerLast.next.bind ActivityT.job).isSome = false ∧
      evaluate_activity 2 rcPlain acMarkerLast = none :=
  ⟨by decide, by decide,
    (C5_marker_only_last 2 rcPlain acMarkerLast markerSingle rfl rfl).2
      (by decide) (by decide)⟩

/-- C3 counterexample data: a route that already has marker jobs (two marker
intervals), with `MAX_FUTURE[0] = 2` recorded and capacity `2`. -/
def rcMarkers : RouteCtx :=
  { state := { current := fun _ => some 0, maxPast := fun _ => some 0,
               maxFuture := fun _ => some 2, maxLoad := none },
    capacity := some 2,
    markerIntervals := some [(0, 0), (1, 1)] }

/-- A pure dynamic pickup demand of size one. -/
def dynPickup : DemandT := { pickupStatic := 0, pickupDynamic := 1,
                             deliveryStatic := 0, deliveryDynamic := 0 }

/-- C3 counterexample candidate: a plain single job with demand `dynPickup`
evaluated after activity `0`. -/
def acDyn : ActCtx :=
  { prev := ⟨some ⟨none, false, false⟩⟩, prevIdx := 0,
    target := ⟨some ⟨some dynPickup, false, false⟩⟩, next := some ⟨none⟩, index := 1 }

/-- C3 counterexample: on a route that already has marker jobs, with
`MAX_FUTURE[pivot] + D.change = 3` exceeding the capacity `2`, the evaluation
rejects with `stopped = false`, not `stopped = true` as the claim states
(the `stopped` flag passed to `has_demand_violation` is
`!multi_trip.has_markers(route_ctx)`). -/
theorem C3_counterexample :
    ¬ ((rcMarkers.state.maxFuture acDyn.prevIdx).getD 0 + dynPickup.change ≤ 2) ∧
      evaluate_activity 7 rcMarkers acDyn = some ⟨7, false⟩ := by
  constructor
  · decide
  · decide

/-- C3 (amended): for a plain single job whose demand has a non-empty dynamic
change and whose static delivery/pickup checks pass, the hard-activity
evaluation rejects with `stopped = !has_markers` (so `stopped = true` exactly
when the route has no marker jobs) when `MAX_FUTURE[pivot] + D.change` exceeds
the capacity; rejects with `stopped = false` when that fits but
`CURRENT[pivot] + D.change` exceeds the capacity; and reports no violation
otherwise. -/
theorem C3_dynamic_change_cases (code cap : Int) (rc : RouteCtx) (ac : ActCtx)
    (d : DemandT) (s : SingleT)
    (hjob : ac.target.job = some s) (hsd : s.demand = some d)
    (hm : s.marker = false) (hmp : s.partOfMulti = false)
    (hcap : rc.capacity = some cap)
    (hchg : d.change ≠ 0)
    (hds : d.deliveryStatic ≠ 0 →
      (rc.state.maxPast ac.prevIdx).getD 0 + d.deliveryStatic ≤ cap)
    (hps : d.pickupStatic ≠ 0 →
      (rc.state.maxFuture ac.prevIdx).getD 0 + d.pickupStatic ≤ cap) :
    (cap < (rc.state.maxFuture ac.prevIdx).getD 0 + d.change →
      evaluate_activity code rc ac = some ⟨code, ! has_markers rc⟩) ∧
    ((rc.state.maxFuture ac.prevIdx).getD 0 + d.change ≤ cap →
      cap < (rc.state.current ac.prevIdx).getD 0 + d.change →
      evaluate_activity code rc ac = some ⟨code, false⟩) ∧
    ((rc.state.maxFuture ac.prevIdx).getD 0 + d.change ≤ cap →
      (rc.state.current ac.prevIdx).getD 0 + d.change ≤ cap →
      evaluate_activity code rc ac = none) := by
  have hdel : (is_not_empty d.deliveryStatic &&
      ! can_fit cap ((rc.state.maxPast ac.prevIdx).getD 0 + d.deliveryStatic)) = false := by
    by_cases h : d.deliveryStatic = 0
    · simp [is_not_empty, h]
    · simp [is_not_empty, h, can_fit, hds h]
  have hpick : (is_not_empty d.pickupStatic &&
      ! can_fit cap ((rc.state.maxFuture ac.prevIdx).getD 0 + d.pickupStatic)) = false := by
    by_cases h : d.pickupStatic = 0
    · simp [is_not_empty, h]
    · simp [is_not_empty, h, can_fit, hps h]
  refine ⟨fun hover => ?_, fun hfit hcur => ?_, fun hfit hcur => ?_⟩
  · have h3 : (is_not_empty d.change &&
        ! can_fit cap ((rc.state.maxFuture ac.prevIdx).getD 0 + d.change)) = true := by
      simp only [is_not_empty, can_fit, Bool.and_eq_true, bne_iff_ne, ne_eq,
        Bool.not_eq_true', decide_eq_false_iff_not, not_le]
      exact ⟨hchg, hover⟩
    simp [evaluate_activity, hjob, hm, hmp, get_demand, hsd, has_demand_violation,
      hcap, hdel, hpick, h3]
  · have h3 : (is_not_empty d.change &&
        ! can_fit cap ((rc.state.maxFuture ac.prevIdx).getD 0 + d.change)) = false := by
      simp [can_fit, hfit]
    have h4 : (is_not_empty d.change &&
        ! can_fit cap ((rc.state.current ac.prevIdx).getD 0 + d.change)) = true := by
      simp only [is_not_empty, can_fit, Bool.and_eq_true, bne_iff_ne, ne_eq,
        Bool.not_eq_true', decide_eq_false_iff_not, not_le]
      exact ⟨hchg, hcur⟩
    simp [evaluate_activity, hjob, hm, hmp, get_demand, hsd, has_demand_violation,
      hcap, hdel, hpick, h3, h4]
  · have h3 : (is_not_empty d.change &&
        ! can_fit cap ((rc.state.maxFuture ac.prevIdx).getD 0 + d.change)) = false := by
      simp [can_fit, hfit]
    have h4 : (is_not_empty d.change &&
        ! can_fit cap ((rc.state.current ac.prevIdx).getD 0 + d.change)) = false := by
      simp [can_fit, hcur]
    simp [evaluate_activity, hjob, hm, hmp, get_demand, hsd, has_demand_violation,
      hcap, hdel, hpick, h3, h4]

/-- A route context without markers for the C3 witness: `MAX_FUTURE[0] = 2`,
`CURRENT[0] = 2`, capacity `2`. -/
def rcNoMarkers : RouteCtx :=
  { state := { current := fun _ => some 2, maxPast := fun _ => some 2,
               maxFuture := fun _ => some 2, maxLoad := none },
    capacity := some 2,
    markerIntervals := none }

theorem C3_dynamic_change_cases_witness :
    (⟨some ⟨some dynPickup, false, false⟩⟩ : ActivityT).job =
        some ⟨some dynPickup, false, false⟩ ∧
      dynPickup.change ≠ 0 ∧
      evaluate_activity 7 rcNoMarkers acDyn = some ⟨7, ! has_markers rcNoMarkers⟩ :=
  ⟨rfl, by decide,
    (C3_dynamic_change_cases 7 2 rcNoMarkers acDyn dynPickup ⟨some dynPickup, false, false⟩
      rfl rfl rfl rfl rfl (by decide) (fun h => absurd rfl h) (fun h => absurd rfl h)).1
      (by decide)⟩

end Capacity

namespace Cache

/-!
Embedding of `construction/heuristics/cache.rs`.  Actors, jobs, the pointer
identity of a `Single` and the insertion position are modelled as `Nat`
(they are only used as hashable identities).  `HashMap`s are modelled as
association lists whose `insert` replaces the entry of an existing key;
`f64` costs are exact rationals.  The pipeline evaluators additionally
report how many times the constraint pipeline was invoked (`0` or `1`),
which instruments the source's direct call to `self.constraint`.
-/

/-- Actor identity. -/
abbrev Actor := Nat

/-- Job identity. -/
abbrev JobK := Nat

/-- `RouteCacheKey(actor, job)`. -/
abbrev RouteKey := Actor × JobK

/-- `ActivityCacheKey(actor, job, single pointer, position)`. -/
abbrev ActKey := Actor × JobK × Nat × Nat

/-- `RouteConstraintViolation { code }`. -/
structure RouteViolation where
  code : Int
deriving DecidableEq

/-- Result of a hard route evaluation. -/
abbrev RouteRes := Option RouteViolation

/-- Result of a hard activity evaluation. -/
abbrev ActRes := Option Capacity.ActivityConstraintViolation

/-- `Cost` (an `f64`), modelled exactly. -/
abbrev Cost := ℚ

/-- Association-list lookup (`HashMap::get`). -/
def mget {K V : Type} [DecidableEq K] : List (K × V) → K → Option V
  | [], _ => none
  | e :: r, k => if k = e.1 then some e.2 else mget r k

/-- Association-list insert (`HashMap::insert`): replaces an existing entry. -/
def mput {K V : Type} [DecidableEq K] (m : List (K × V)) (k : K) (v : V) : List (K × V) :=
  (k, v) :: m.filter (fun e => decide (¬ e.1 = k))

/-- Association-list removal (`HashMap::remove`). -/
def mdel {K V : Type} [DecidableEq K] (m : List (K × V)) (k : K) : List (K × V) :=
  m.filter (fun e => decide (¬ e.1 = k))

theorem mget_mput_self {K V : Type} [DecidableEq K] (m : List (K × V)) (k : K) (v : V) :
    mget (mput m k v) k = some v := by
  simp [mget, mput]

theorem mget_filter_ne {K V : Type} [DecidableEq K] (m : List (K × V)) (k k2 : K)
    (h : ¬ k2 = k) : mget (m.filter (fun e => decide (¬ e.1 = k))) k2 = mget m k2 := by
  induction m with
  | nil => rfl
  | cons e r ih =>
    rw [List.filter_cons]
    by_cases he : e.1 = k
    · have hd : decide (¬ e.1 = k) = false := by simp [he]
      have h2 : ¬ k2 = e.1 := fun hh => h (hh.trans he)
      rw [hd]
      simp only [Bool.false_eq_true, if_false]
      rw [ih]
      simp [mget, h2]
    · have hd : decide (¬ e.1 = k) = true := by simp [he]
      rw [hd]
      simp only [if_true]
      by_cases h2 : k2 = e.1
      · simp only [mget, if_pos h2]
      · simp only [mget, if_neg h2]
        exact ih

theorem mget_mput_ne {K V : Type} [DecidableEq K] (m : List (K × V)) (k k2 : K) (v : V)
    (h : ¬ k2 = k) : mget (mput m k v) k2 = mget m k2 := by
  rw [mput]
  simp only [mget, if_neg h]
  exact mget_filter_ne m k k2 h

theorem mget_mdel_self {K V : Type} [DecidableEq K] (m : List (K × V)) (k : K) :
    mget (mdel m k) k = none := by
  induction m with
  | nil => rfl
  | cons e r ih =>
    rw [mdel, List.filter_cons]
    by_cases he : e.1 = k
    · have hd : decide (¬ e.1 = k) = false := by simp [he]
      rw [hd]
      simp only [Bool.false_eq_true, if_false]
      exact ih
    · have hd : decide (¬ e.1 = k) = true := by simp [he]
      have h2 : ¬ k = e.1 := fun hh => he hh.symm
      rw [hd]
      simp only [if_true, mget, if_neg h2]
      exact ih

theorem mget_mdel_ne {K V : Type} [DecidableEq K] (m : List (K × V)) (k k2 : K)
    (h : ¬ k2 = k) : mget (mdel m k) k2 = mget m k2 :=
  mget_filter_ne m k k2 h

/-- `SolutionCache`: four per-actor maps. -/
structure SolutionCache where
  hard_route : List (Actor × List (RouteKey × RouteRes))
  soft_route : List (Actor × List (RouteKey × Cost))
  hard_activity : List (Actor × List (ActKey × ActRes))
  soft_activity : List (Actor × List (ActKey × Cost))

/-- `SolutionCache::default()`: all maps empty. -/
def SolutionCache.empty : SolutionCache := ⟨[], [], [], []⟩

/-- `JobCache`: four optional scratch maps. -/
structure JobCache where
  hard_route : Option (List (RouteKey × RouteRes))
  soft_route : Option (List (RouteKey × Cost))
  hard_activity : Option (List (ActKey × ActRes))
  soft_activity : Option (List (ActKey × Cost))
deriving DecidableEq

/-- `JobCache::default()`. -/
def JobCache.empty : JobCache := ⟨none, none, none, none⟩

/-- `InsertionCache::evaluate_hard_route`.  `solution` is the optional
solution-level cache, `jc` the job-level cache; `pipeline` stands for
`self.constraint.evaluate_hard_route(...)`.  Returns the result, the updated
job cache and the number of pipeline invocations. -/
def evaluate_hard_route (solution : Option SolutionCache) (jc : JobCache)
    (pipeline : RouteKey → RouteRes) (actor : Actor) (job : JobK) :
    RouteRes × JobCache × Nat :=
  let key : RouteKey := (actor, job)
  match solution.bind (fun s => (mget s.hard_route actor).bind (fun cache => mget cache key)) with
  | some result => (result, jc, 0)
  | none =>
    let result := pipeline key
    (result, { jc with hard_route := some (mput (jc.hard_route.getD []) key result) }, 1)

/-- `InsertionCache::evaluate_soft_route`. -/
def evaluate_soft_route (solution : Option SolutionCache) (jc : JobCache)
    (pipeline : RouteKey → Cost) (actor : Actor) (job : JobK) :
    Cost × JobCache × Nat :=
  let key : RouteKey := (actor, job)
  match solution.bind (fun s => (mget s.soft_route actor).bind (fun cache => mget cache key)) with
  | some result => (result, jc, 0)
  | none =>
    let result := pipeline key
    (result, { jc with soft_route := some (mput (jc.soft_route.getD []) key result) }, 1)

/-- `InsertionCache::evaluate_hard_activity`.  `keyOpt` is
`get_activity_cache_key(route_ctx, activity_ctx)` (`none` when the target
carries no job); `pipeline` stands for
`self.constraint.evaluate_hard_activity(...)`. -/
def evaluate_hard_activity (solution : Option SolutionCache) (jc : JobCache)
    (pipeline : ActRes) (actor : Actor) (keyOpt : Option ActKey) :
    ActRes × JobCache × Nat :=
  match keyOpt with
  | some key =>
    match solution.bind (fun s => (mget s.hard_activity actor).bind (fun cache => mget cache key)) with
    | some result => (result, jc, 0)
    | none =>
      (pipeline, { jc with hard_activity := some (mput (jc.hard_activity.getD []) key pipeline) }, 1)
  | none => (pipeline, jc, 1)

/-- `InsertionCache::evaluate_soft_activity`. -/
def evaluate_soft_activity (solution : Option SolutionCache) (jc : JobCache)
    (pipeline : Cost) (actor : Actor) (keyOpt : Option ActKey) :
    Cost × JobCache × Nat :=
  match keyOpt with
  | some key =>
    match solution.bind (fun s => (mget s.soft_activity actor).bind (fun cache => mget cache key)) with
    | some result => (result, jc, 0)
    | none =>
      (pipeline, { jc with soft_activity := some (mput (jc.soft_activity.getD []) key pipeline) }, 1)
  | none => (pipeline, jc, 1)

/-- `InsertionCache::remove`: drop the actor's entry from all four maps. -/
def remove (sc : SolutionCache) (actor : Actor) : SolutionCache :=
  { hard_route := mdel sc.hard_route actor,
    soft_route := mdel sc.soft_route actor,
    hard_activity := mdel sc.hard_activity actor,
    soft_activity := mdel sc.soft_activity actor }

/-- The `sync_maps` helper: fold the job-level entries into the per-actor
destination map (`destination.entry(actor).or_insert(..).insert(key, value)`).
-/
def sync_maps {K : Type} {V : Type} [DecidableEq K]
    (dest : List (Actor × List (K × V))) (other : Option (List (K × V)))
    (getActor : K → Actor) : List (Actor × List (K × V)) :=
  (other.getD []).foldl
    (fun d e => mput d (getActor e.1) (mput ((mget d (getActor e.1)).getD []) e.1 e.2)) dest

/-- `InsertionCache::synchronize`: merge a job cache into the solution cache,
partitioned by actor (the actor is the first component of each key). -/
def synchronize (sc : SolutionCache) (jc : JobCache) : SolutionCache :=
  { hard_route := sync_maps sc.hard_route jc.hard_route (fun k => k.1),
    soft_route := sync_maps sc.soft_route jc.soft_route (fun k => k.1),
    hard_activity := sync_maps sc.hard_activity jc.hard_activity (fun k => k.1),
    soft_activity := sync_maps sc.soft_activity jc.soft_activity (fun k => k.1) }

/-- C7: after `remove(actor)` no entry keyed by that actor exists in any of
the four `SolutionCache` sub-maps, while every other actor's entries in all
four sub-maps are unchanged. -/
theorem C7_remove_purges_actor (sc : SolutionCache) (a b : Actor) (h : b ≠ a) :
    mget (remove sc a).hard_route a = none ∧
    mget (remove sc a).soft_route a = none ∧
    mget (remove sc a).hard_activity a = none ∧
    mget (remove sc a).soft_activity a = none ∧
    mget (remove sc a).hard_route b = mget sc.hard_route b ∧
    mget (remove sc a).soft_route b = mget sc.soft_route b ∧
    mget (remove sc a).hard_activity b = mget sc.hard_activity b ∧
    mget (remove sc a).soft_activity b = mget sc.soft_activity b :=
  ⟨mget_mdel_self _ _, mget_mdel_self _ _, mget_mdel_self _ _, mget_mdel_self _ _,
   mget_mdel_ne _ _ _ h, mget_mdel_ne _ _ _ h, mget_mdel_ne _ _ _ h, mget_mdel_ne _ _ _ h⟩

/-- A populated solution cache used by the C7 witness. -/
def scSample : SolutionCache :=
  { hard_route := [(0, [((0, 5), some ⟨3⟩)]), (1, [((1, 5), none)])],
    soft_route := [(0, [((0, 5), 2)])],
    hard_activity := [(0, [((0, 5, 0, 0), none)])],
    soft_activity := [(1, [((1, 5, 0, 0), 7)])] }

theorem eval_hard_route_miss (sc : SolutionCache) (jc : JobCache)
    (pfr : RouteKey → RouteRes) (a : Actor) (j : JobK)
    (h : (mget sc.hard_route a).bind (fun c => mget c (a, j)) = none) :
    evaluate_hard_route (some sc) jc pfr a j =
      (pfr (a, j),
       { jc with hard_route := some (mput (jc.hard_route.getD []) (a, j) (pfr (a, j))) }, 1) := by
  simp only [evaluate_hard_route, Option.some_bind, h]

theorem eval_hard_route_hit (sc : SolutionCache) (jc : JobCache)
    (pfr : RouteKey → RouteRes) (a : Actor) (j : JobK) (r : RouteRes)
    (h : (mget sc.hard_route a).bind (fun c => mget c (a, j)) = some r) :
    evaluate_hard_route (some sc) jc pfr a j = (r, jc, 0) := by
  simp only [evaluate_hard_route, Option.some_bind, h]

theorem eval_soft_route_miss (sc : SolutionCache) (jc : JobCache)
    (psr : RouteKey → Cost) (a : Actor) (j : JobK)
    (h : (mget sc.soft_route a).bind (fun c => mget c (a, j)) = none) :
    evaluate_soft_route (some sc) jc psr a j =
      (psr (a, j),
       { jc with soft_route := some (mput (jc.soft_route.getD []) (a, j) (psr (a, j))) }, 1) := by
  simp only [evaluate_soft_route, Option.some_bind, h]

theorem eval_soft_route_hit (sc : SolutionCache) (jc : JobCache)
    (psr : RouteKey → Cost) (a : Actor) (j : JobK) (r : Cost)
    (h : (mget sc.soft_route a).bind (fun c => mget c (a, j)) = some r) :
    evaluate_soft_route (some sc) jc psr a j = (r, jc, 0) := by
  simp only [evaluate_soft_route, Option.some_bind, h]

theorem eval_hard_activity_miss (sc : SolutionCache) (jc : JobCache)
    (pha : ActRes) (a : Actor) (ka : ActKey)
    (h : (mget sc.hard_activity a).bind (fun c => mget c ka) = none) :
    evaluate_hard_activity (some sc) jc pha a (some ka) =
      (pha, { jc with hard_activity := some (mput (jc.hard_activity.getD []) ka pha) }, 1) := by
  simp only [evaluate_hard_activity, Option.some_bind, h]

theorem eval_hard_activity_hit (sc : SolutionCache) (jc : JobCache)
    (pha : ActRes) (a : Actor) (ka : ActKey) (r : ActRes)
    (h : (mget sc.hard_activity a).bind (fun c => mget c ka) = some r) :
    evaluate_hard_activity (some sc) jc pha a (some ka) = (r, jc, 0) := by
  simp only [evaluate_hard_activity, Option.some_bind, h]

theorem eval_soft_activity_miss (sc : SolutionCache) (jc : JobCache)
    (psa : Cost) (a : Actor) (ka : ActKey)
    (h : (mget sc.soft_activity a).bind (fun c => mget c ka) = none) :
    evaluate_soft_activity (some sc) jc psa a (some ka) =
      (psa, { jc with soft_activity := some (mput (jc.soft_activity.getD []) ka psa) }, 1) := by
  simp only [evaluate_soft_activity, Option.some_bind, h]

theorem eval_soft_activity_hit (sc : SolutionCache) (jc : JobCache)
    (psa : Cost) (a : Actor) (ka : ActKey) (r : Cost)
    (h : (mget sc.soft_activity a).bind (fun c => mget c ka) = some r) :
    evaluate_soft_activity (some sc) jc psa a (some ka) = (r, jc, 0) := by
  simp only [evaluate_soft_activity, Option.some_bind, h]

theorem sync_single {K : Type} {V : Type} [DecidableEq K]
    (dest : List (Actor × List (K × V))) (k : K) (v : V) (ga : K → Actor) :
    sync_maps dest (some (mput [] k v)) ga =
      mput dest (ga k) (mput ((mget dest (ga k)).getD []) k v) := rfl

theorem sync_lookup {K : Type} {V : Type} [DecidableEq K]
    (dest : List (Actor × List (K × V))) (k : K) (v : V) (ga : K → Actor) (a : Actor)
    (hka : ga k = a) :
    (mget (sync_maps dest (some (mput [] k v)) ga) a).bind (fun c => mget c k) = some v := by
  rw [sync_single, hka, mget_mput_self, Option.some_bind, mget_mput_self]

/-- The first evaluation of the C2 counterexample: fresh (empty) solution and
job caches, a pipeline that reports feasibility. -/
def c2eval1 : RouteRes × JobCache × Nat :=
  evaluate_hard_route (some SolutionCache.empty) JobCache.empty (fun _ => none) 0 0

/-- The repeated evaluation of the same `(actor, job)` question, with the job
cache produced by the first evaluation. -/
def c2eval2 : RouteRes × JobCache × Nat :=
  evaluate_hard_route (some SolutionCache.empty) c2eval1.2.1 (fun _ => none) 0 0

/-- C2 counterexample: with an empty `SolutionCache`, evaluating the same
`(actor, job)` hard-route question twice invokes the pipeline twice — the
second evaluation invokes it even though the `JobCache` already holds the
memoized answer, because the evaluators never look the key up in the
`JobCache`. -/
theorem C2_counterexample :
    c2eval1.2.2 = 1 ∧
      mget (c2eval1.2.1.hard_route.getD []) (0, 0) = some none ∧
      c2eval2.2.2 = 1 := by
  refine ⟨rfl, ?_, rfl⟩
  decide

/-- C2 (amended): each of the four evaluators consults only the
`SolutionCache`; on a hit it returns the cached result without invoking the
pipeline, on a miss it invokes the pipeline exactly once and memoizes the
result into the `JobCache` (for activity evaluations only when a cache key
exists).  At-most-once evaluation of a key holds only once the `JobCache`
has been synchronized into the `SolutionCache`: after `synchronize`, the
same question is answered from the cache with no pipeline invocation. -/
theorem C2_cache_discipline (sc : SolutionCache)
    (pfr : RouteKey → RouteRes) (psr : RouteKey → Cost) (pha : ActRes) (psa : Cost)
    (a : Actor) (j : JobK) (ka : ActKey)
    (h1 : (mget sc.hard_route a).bind (fun c => mget c (a, j)) = none)
    (h2 : (mget sc.soft_route a).bind (fun c => mget c (a, j)) = none)
    (h3 : (mget sc.hard_activity a).bind (fun c => mget c ka) = none)
    (h4 : (mget sc.soft_activity a).bind (fun c => mget c ka) = none)
    (hka : ka.1 = a) :
    (evaluate_hard_route (some sc) JobCache.empty pfr a j).2.2 = 1 ∧
    (evaluate_hard_route (some sc) JobCache.empty pfr a j).1 = pfr (a, j) ∧
    mget ((evaluate_hard_route (some sc) JobCache.empty pfr a j).2.1.hard_route.getD [])
      (a, j) = some (pfr (a, j)) ∧
    evaluate_hard_route
      (some (synchronize sc (evaluate_hard_route (some sc) JobCache.empty pfr a j).2.1))
      JobCache.empty pfr a j = (pfr (a, j), JobCache.empty, 0) ∧
    (evaluate_soft_route (some sc) JobCache.empty psr a j).2.2 = 1 ∧
    (evaluate_soft_route (some sc) JobCache.empty psr a j).1 = psr (a, j) ∧
    mget ((evaluate_soft_route (some sc) JobCache.empty psr a j).2.1.soft_route.getD [])
      (a, j) = some (psr (a, j)) ∧
    evaluate_soft_route
      (some (synchronize sc (evaluate_soft_route (some sc) JobCache.empty psr a j).2.1))
      JobCache.empty psr a j = (psr (a, j), JobCache.empty, 0) ∧
    (evaluate_hard_activity (some sc) JobCache.empty pha a (some ka)).2.2 = 1 ∧
    (evaluate_hard_activity (some sc) JobCache.empty pha a (some ka)).1 = pha ∧
    mget ((evaluate_hard_activity (some sc) JobCache.empty pha a (some ka)).2.1.hard_activity.getD [])
      ka = some pha ∧
    evaluate_hard_activity
      (some (synchronize sc (evaluate_hard_activity (some sc) JobCache.empty pha a (some ka)).2.1))
      JobCache.empty pha a (some ka) = (pha, JobCache.empty, 0) ∧
    (evaluate_soft_activity (some sc) JobCache.empty psa a (some ka)).2.2 = 1 ∧
    (evaluate_soft_activity (some sc) JobCache.empty psa a (some ka)).1 = psa ∧
    mget ((evaluate_soft_activity (some sc) JobCache.empty psa a (some ka)).2.1.soft_activity.getD [])
      ka = some psa ∧
    evaluate_soft_activity
      (some (synchronize sc (evaluate_soft_activity (some sc) JobCache.empty psa a (some ka)).2.1))
      JobCache.empty psa a (some ka) = (psa, JobCache.empty, 0) ∧
    evaluate_hard_activity (some sc) JobCache.empty pha a none = (pha, JobCache.empty, 1) := by
  rw [eval_hard_route_miss sc JobCache.empty pfr a j h1,
    eval_soft_route_miss sc JobCache.empty psr a j h2,
    eval_hard_activity_miss sc JobCache.empty pha a ka h3,
    eval_soft_activity_miss sc JobCache.empty psa a ka h4]
  refine ⟨rfl, rfl, mget_mput_self _ _ _, ?_, rfl, rfl, mget_mput_self _ _ _, ?_,
    rfl, rfl, mget_mput_self _ _ _, ?_, rfl, rfl, mget_mput_self _ _ _, ?_, rfl⟩
  · exact eval_hard_route_hit _ _ _ _ _ _
      (sync_lookup sc.hard_route (a, j) (pfr (a, j)) (fun k => k.1) a rfl)
  · exact eval_soft_route_hit _ _ _ _ _ _
      (sync_lookup sc.soft_route (a, j) (psr (a, j)) (fun k => k.1) a rfl)
  · exact eval_hard_activity_hit _ _ _ _ _ _
      (sync_lookup sc.hard_activity ka pha (fun k => k.1) a hka)
  · exact eval_soft_activity_hit _ _ _ _ _ _
      (sync_lookup sc.soft_activity ka psa (fun k => k.1) a hka)

theorem C2_cache_discipline_witness :
    (mget SolutionCache.empty.hard_route 0).bind
        (fun c => mget c ((0 : Actor), (0 : JobK))) = none ∧
      evaluate_hard_route (some SolutionCache.empty) JobCache.empty
        (fun _ => none) 0 0 = (none, ⟨some [((0, 0), none)], none, none, none⟩, 1) ∧
      evaluate_hard_route
        (some (synchronize SolutionCache.empty
          (evaluate_hard_route (some SolutionCache.empty) JobCache.empty
            (fun _ => none) 0 0).2.1))
        JobCache.empty (fun _ => none) 0 0 = (none, JobCache.empty, 0) :=
  ⟨rfl, by decide,
    (C2_cache_discipline SolutionCache.empty (fun _ => none) (fun _ => 0) none 0
      0 0 (0, 0, 0, 0) rfl rfl rfl rfl rfl).2.2.2.1⟩

theorem C7_remove_purges_actor_witness :
    (1 : Actor) ≠ 0 ∧ mget (remove scSample 0).hard_route 0 = none ∧
      mget (remove scSample 0).soft_activity 1 = mget scSample.soft_activity 1 :=
  ⟨by decide, (C7_remove_purges_actor scSample 0 1 (by decide)).1,
    (C7_remove_purges_actor scSample 0 1 (by decide)).2.2.2.2.2.2.2⟩

end Cache

namespace Branches

/-!
Embedding of `solver/evolution/run_branches.rs`.  Individuals are opaque
identities.  The message channel seen by the root collector is modelled as
the list of `Option<Vec<Individual>>` messages it receives before all
senders drop.
-/

/-- An individual (opaque identity). -/
abbrev Individual := Nat

/-- The receive loop of `collect_individuals`: `chunks` counts received
messages, `is_improved` is the flag returned to the caller.  The source's
merge line (`is_improved = refinement_ctx.population.add_all(individuals)`)
is commented out, so a `Some(individuals)` message has no effect on either
the population or the flag. -/
def collect_loop (population : List Individual) (chunks : Nat) (is_improved : Bool) :
    List (Option (List Individual)) → List Individual × Bool
  | [] => (population, is_improved)
  | _msg :: rest =>
    let chunks := chunks + 1
    if chunks = 200 then (population, is_improved)
    else collect_loop population chunks is_improved rest

/-- `collect_individuals`: read until the 200-message budget is reached or
all senders drop; return the (never assigned) improvement flag. -/
def collect_individuals (population : List Individual)
    (msgs : List (Option (List Individual))) : List Individual × Bool :=
  collect_loop population 0 false msgs

/-- One super-generation of `run_evolution` at the root: a fresh
`is_terminated` flag is created (initially `false`) and handed to the worker
branches; the collector then runs; `telemetry.on_generation` receives the
returned flag.  Neither `collect_individuals` nor any other root-side code
stores into `is_terminated`, so the returned flag value is the initial one.
Returns (population, is_improved, is_terminated). -/
def run_super_generation (population : List Individual)
    (msgs : List (Option (List Individual))) : List Individual × Bool × Bool :=
  let is_terminated := false
  let collected := collect_individuals population msgs
  (collected.1, collected.2, is_terminated)

/-- `AtomicQuota::is_reached`:
`original.map_or(false, |q| q.is_reached()) || is_terminated.fetch_and(true)`.
`fetch_and(true)` leaves the atomic unchanged and returns its previous value,
so it is a pure read.  `original` is the optional outer quota, modelled by
its verdict. -/
def is_reached (original : Option Bool) (is_terminated : Bool) : Bool :=
  original.getD false || is_terminated

/-- C1: evaluating `collect_individuals` at a batch of best individuals shows
the received batch is not merged into the root population and the
improvement flag stays `false` — the merge line is commented out, so
`telemetry.on_generation` is always notified with `is_improved = false`. -/
theorem C1_collect_drops_batches :
    collect_individuals [3] [some [5], none] = ([3], false) := rfl

/-- C6: after a full super-generation in which the root collector read its
entire 200-message budget, the shared `is_terminated` flag is still `false`
(no root-side code ever stores into it), and `AtomicQuota::is_reached`
consequently still returns `false` for a worker with no outer quota. -/
theorem C6_flag_never_set :
    (run_super_generation [3] (List.replicate 200 (some [5]))).2.2 = false ∧
      is_reached none (run_super_generation [3] (List.replicate 200 (some [5]))).2.2 = false :=
  ⟨rfl, rfl⟩

end Branches

namespace Capacity

/-!
Embedding of `CapacityConstraintModule::recalculate_states`.  The per-activity
state maps are keyed by tour index.  The marker intervals are recomputed by
the `MultiTrip` collaborator from the tour alone (its `accept_route_state` is
invoked at the top of `recalculate_states`), so they are passed as a
parameter; for a route without multi trip they default to
`[(0, tour.total() - 1)]`.  `activities_slice(start, end)` is inclusive of
both endpoints.  The source's `unwrap()` on the just-written
`CURRENT_CAPACITY_KEY` value in the right-to-left sweep is modelled as
`getD 0`; the left sweep of the same interval always writes that key first,
so the default is never observable.
-/

/-- `put_activity_state` on one state key: point update of the map. -/
def putA (f : Nat → Option Int) (i : Nat) (v : Int) : Nat → Option Int :=
  fun j => if j = i then some v else f j

/-- The activities of `activities_slice(s, e)` paired with their tour
indices. -/
def slicePairs (acts : List ActivityT) (s e : Nat) : List (Nat × ActivityT) :=
  (List.range' s (e + 1 - s)).map (fun i => (i, acts.getD i ⟨none⟩))

/-- One step of the left-to-right sweep: `current = current + change`,
`max = max.max_load(current)`, record `CURRENT` and `MAX_PAST`. -/
def leftStep (p : RouteState × Int × Int) (ia : Nat × ActivityT) : RouteState × Int × Int :=
  let current := p.2.1 + chg ia.2
  let mx := max p.2.2 current
  ({ p.1 with current := putA p.1.current ia.1 current,
              maxPast := putA p.1.maxPast ia.1 mx }, current, mx)

/-- One step of the right-to-left sweep: `max = max.max_load(CURRENT[a])`,
record `MAX_FUTURE`. -/
def rightStep (p : RouteState × Int) (ia : Nat × ActivityT) : RouteState × Int :=
  let mx := max p.2 ((p.1.current ia.1).getD 0)
  ({ p.1 with maxFuture := putA p.1.maxFuture ia.1 mx }, mx)

/-- Static deliveries loaded at the interval begin and static pickups brought
to the interval end (`(start_delivery, end_pickup)`). -/
def staticSums (acc : Int) (ps : List (Nat × ActivityT)) : Int × Int :=
  ps.foldl (fun sp ia =>
    match get_demand ia.2 with
    | some d => (sp.1 + d.deliveryStatic, sp.2 + d.pickupStatic)
    | none => sp) (acc, 0)

/-- The per-interval body of the fold in `recalculate_states`. -/
def intervalStep (acts : List ActivityT) (p : RouteState × Int × Int) (iv : Nat × Nat) :
    RouteState × Int × Int :=
  let ps := slicePairs acts iv.1 iv.2
  let sd := staticSums p.2.1 ps
  let l := ps.foldl leftStep (p.1, sd.1, 0)
  let r := ps.reverse.foldl rightStep (l.1, l.2.1)
  (r.1, l.2.1 - sd.2, max r.2 p.2.2)

/-- `CapacityConstraintModule::recalculate_states`: fold the reload intervals,
then store `MAX_LOAD = max_load.ratio(capacity)` when the vehicle declares a
capacity. -/
def recalculate_states (acts : List ActivityT) (ivs : List (Nat × Nat))
    (capacity : Option Int) (st : RouteState) : RouteState :=
  let f := ivs.foldl (intervalStep acts) (st, 0, 0)
  match capacity with
  | some c => { f.1 with maxLoad := some ((f.2.2 : ℚ) / (c : ℚ)) }
  | none => f.1

/-- `ivs` is the interval decomposition of a tour with `n` activities:
consecutive inclusive intervals starting at `0` and ending at `n - 1`. -/
def chainFrom : Nat → List (Nat × Nat) → Nat → Bool
  | s, [], n => s == n
  | s, iv :: r, n => (iv.1 == s) && decide (s ≤ iv.2) && chainFrom (iv.2 + 1) r n

/-- Apply a list of writes to a state map, later writes overriding. -/
def applyW (f : Nat → Option Int) (l : List (Nat × Int)) : Nat → Option Int :=
  l.foldl (fun g e => putA g e.1 e.2) f

/-- The value of the last write to `j` in a write list. -/
def lookW : List (Nat × Int) → Nat → Option Int
  | [], _ => none
  | e :: r, j =>
    match lookW r j with
    | some v => some v
    | none => if j = e.1 then some e.2 else none

/-- Pure final accumulators of the left sweep. -/
def leftFin (c0 m0 : Int) : List (Nat × ActivityT) → Int × Int
  | [] => (c0, m0)
  | ia :: r => leftFin (c0 + chg ia.2) (max m0 (c0 + chg ia.2)) r

/-- Pure per-activity values of the left sweep: index, `CURRENT`, `MAX_PAST`. -/
def leftList (c0 m0 : Int) : List (Nat × ActivityT) → List (Nat × Int × Int)
  | [] => []
  | ia :: r => (ia.1, c0 + chg ia.2, max m0 (c0 + chg ia.2)) ::
      leftList (c0 + chg ia.2) (max m0 (c0 + chg ia.2)) r

/-- The `CURRENT` writes of the left sweep. -/
def cPairs (c0 m0 : Int) (ps : List (Nat × ActivityT)) : List (Nat × Int) :=
  (leftList c0 m0 ps).map (fun e => (e.1, e.2.1))

/-- The `MAX_PAST` writes of the left sweep. -/
def pPairs (c0 m0 : Int) (ps : List (Nat × ActivityT)) : List (Nat × Int) :=
  (leftList c0 m0 ps).map (fun e => (e.1, e.2.2))

/-- Pure per-activity values of the right sweep given the `CURRENT` map. -/
def rightList (g : Nat → Option Int) (m0 : Int) : List (Nat × ActivityT) → List (Nat × Int)
  | [] => []
  | ia :: r => (ia.1, max m0 ((g ia.1).getD 0)) ::
      rightList g (max m0 ((g ia.1).getD 0)) r

/-- Pure final accumulator of the right sweep. -/
def rightFin (g : Nat → Option Int) (m0 : Int) : List (Nat × ActivityT) → Int
  | [] => m0
  | ia :: r => rightFin g (max m0 ((g ia.1).getD 0)) r

/-- All writes and accumulators produced by one interval. -/
structure IntervalW where
  cp : List (Nat × Int)
  pp : List (Nat × Int)
  fp : List (Nat × Int)
  accN : Int
  rmax : Int

/-- Pure description of `intervalStep`. -/
def intervalData (acts : List ActivityT) (acc : Int) (iv : Nat × Nat) : IntervalW :=
  let ps := slicePairs acts iv.1 iv.2
  let sd := staticSums acc ps
  let cp := cPairs sd.1 0 ps
  let fin := leftFin sd.1 0 ps
  { cp := cp, pp := pPairs sd.1 0 ps,
    fp := rightList (fun i => lookW cp i) fin.1 ps.reverse,
    accN := fin.1 - sd.2,
    rmax := rightFin (fun i => lookW cp i) fin.1 ps.reverse }

/-- All writes and accumulators produced by the interval fold. -/
structure RecalcW where
  cp : List (Nat × Int)
  pp : List (Nat × Int)
  fp : List (Nat × Int)
  accF : Int
  mxF : Int

/-- Pure description of the interval fold of `recalculate_states`. -/
def recalcData (acts : List ActivityT) : Int → Int → List (Nat × Nat) → RecalcW
  | acc, mx, [] => { cp := [], pp := [], fp := [], accF := acc, mxF := mx }
  | acc, mx, iv :: r =>
    let d := intervalData acts acc iv
    let rest := recalcData acts d.accN (max d.rmax mx) r
    { cp := d.cp ++ rest.cp, pp := d.pp ++ rest.pp, fp := d.fp ++ rest.fp,
      accF := rest.accF, mxF := rest.mxF }

theorem applyW_lookW (l : List (Nat × Int)) : ∀ (f : Nat → Option Int) (j : Nat),
    applyW f l j = match lookW l j with | some v => some v | none => f j := by
  induction l with
  | nil => intro f j; rfl
  | cons e r ih =>
    intro f j
    show applyW (putA f e.1 e.2) r j = _
    rw [ih]
    cases h : lookW r j with
    | some v => simp [lookW, h]
    | none =>
      simp only [lookW, h, putA]
      by_cases hj : j = e.1 <;> simp [hj]

theorem applyW_hit (l : List (Nat × Int)) (f : Nat → Option Int) (j : Nat) (v : Int)
    (h : lookW l j = some v) : applyW f l j = some v := by
  rw [applyW_lookW, h]

theorem applyW_miss (l : List (Nat × Int)) (f : Nat → Option Int) (j : Nat)
    (h : lookW l j = none) : applyW f l j = f j := by
  rw [applyW_lookW, h]

theorem applyW_append (f : Nat → Option Int) (l1 l2 : List (Nat × Int)) :
    applyW f (l1 ++ l2) = applyW (applyW f l1) l2 := by
  simp [applyW, List.foldl_append]

theorem applyW_applyW (f : Nat → Option Int) (l : List (Nat × Int)) :
    applyW (applyW f l) l = applyW f l := by
  funext j
  rw [applyW_lookW, applyW_lookW]
  cases h : lookW l j with
  | some v => rfl
  | none => rfl

theorem left_foldl_eq (ps : List (Nat × ActivityT)) :
    ∀ (st : RouteState) (c0 m0 : Int),
    ps.foldl leftStep (st, c0, m0) =
      ({ st with current := applyW st.current (cPairs c0 m0 ps),
                 maxPast := applyW st.maxPast (pPairs c0 m0 ps) }, leftFin c0 m0 ps) := by
  induction ps with
  | nil => intro st c0 m0; rfl
  | cons ia r ih =>
    intro st c0 m0
    simp only [List.foldl_cons, leftStep]
    rw [ih]
    rfl

theorem right_foldl_eq (qs : List (Nat × ActivityT)) :
    ∀ (st : RouteState) (m0 : Int),
    qs.foldl rightStep (st, m0) =
      ({ st with maxFuture := applyW st.maxFuture (rightList st.current m0 qs) },
       rightFin st.current m0 qs) := by
  induction qs with
  | nil => intro st m0; rfl
  | cons ia r ih =>
    intro st m0
    simp only [List.foldl_cons, rightStep]
    rw [ih]
    rfl

theorem rightList_congr (qs : List (Nat × ActivityT)) :
    ∀ (g h : Nat → Option Int) (m0 : Int), (∀ ia ∈ qs, g ia.1 = h ia.1) →
    rightList g m0 qs = rightList h m0 qs := by
  induction qs with
  | nil => intro g h m0 _; rfl
  | cons ia r ih =>
    intro g h m0 hgh
    have h1 : g ia.1 = h ia.1 := hgh ia (List.mem_cons_self ia r)
    simp only [rightList, h1]
    rw [ih g h _ (fun x hx => hgh x (List.mem_cons_of_mem ia hx))]

theorem rightFin_congr (qs : List (Nat × ActivityT)) :
    ∀ (g h : Nat → Option Int) (m0 : Int), (∀ ia ∈ qs, g ia.1 = h ia.1) →
    rightFin g m0 qs = rightFin h m0 qs := by
  induction qs with
  | nil => intro g h m0 _; rfl
  | cons ia r ih =>
    intro g h m0 hgh
    have h1 : g ia.1 = h ia.1 := hgh ia (List.mem_cons_self ia r)
    simp only [rightFin, h1]
    exact ih g h _ (fun x hx => hgh x (List.mem_cons_of_mem ia hx))

theorem leftList_keys (ps : List (Nat × ActivityT)) : ∀ (c0 m0 : Int),
    (leftList c0 m0 ps).map (fun e => e.1) = ps.map (fun e => e.1) := by
  induction ps with
  | nil => intro c0 m0; rfl
  | cons ia r ih => intro c0 m0; simp only [leftList, List.map_cons, ih]

theorem cPairs_keys (ps : List (Nat × ActivityT)) (c0 m0 : Int) :
    (cPairs c0 m0 ps).map (fun e => e.1) = ps.map (fun e => e.1) := by
  rw [cPairs, List.map_map]
  exact leftList_keys ps c0 m0

theorem lookW_isSome_of_mem (l : List (Nat × Int)) (j : Nat)
    (h : j ∈ l.map (fun e => e.1)) : (lookW l j).isSome = true := by
  induction l with
  | nil => simp at h
  | cons e r ih =>
    simp only [List.map_cons, List.mem_cons] at h
    show (match lookW r j with
      | some v => some v
      | none => if j = e.1 then some e.2 else none).isSome = true
    cases hr : lookW r j with
    | some v => rfl
    | none =>
      rcases h with h | h
      · simp [h]
      · have hcontra := ih h
        rw [hr] at hcontra
        exact absurd hcontra (by simp)

theorem applyW_eq_lookW_on (f : Nat → Option Int) (cp : List (Nat × Int))
    (ps : List (Nat × ActivityT))
    (hkeys : cp.map (fun e => e.1) = ps.map (fun e => e.1)) :
    ∀ ia ∈ ps.reverse, applyW f cp ia.1 = lookW cp ia.1 := by
  intro ia hia
  have h1 : ia ∈ ps := List.mem_reverse.1 hia
  have h2 : ia.1 ∈ cp.map (fun e => e.1) := by
    rw [hkeys]
    exact List.mem_map_of_mem _ h1
  obtain ⟨v, hv⟩ := Option.isSome_iff_exists.1 (lookW_isSome_of_mem cp ia.1 h2)
  rw [hv, applyW_hit cp f ia.1 v hv]

theorem intervalStep_eq (acts : List ActivityT) (iv : Nat × Nat) (st : RouteState)
    (acc mx : Int) :
    intervalStep acts (st, acc, mx) iv =
      ({ st with current := applyW st.current (intervalData acts acc iv).cp,
                 maxPast := applyW st.maxPast (intervalData acts acc iv).pp,
                 maxFuture := applyW st.maxFuture (intervalData acts acc iv).fp },
       (intervalData acts acc iv).accN, max (intervalData acts acc iv).rmax mx) := by
  have hcong := applyW_eq_lookW_on st.current
    (cPairs (staticSums acc (slicePairs acts iv.1 iv.2)).1 0 (slicePairs acts iv.1 iv.2))
    (slicePairs acts iv.1 iv.2) (cPairs_keys _ _ _)
  simp only [intervalStep, intervalData]
  rw [left_foldl_eq, right_foldl_eq]
  rw [rightList_congr _ _ _ _ hcong, rightFin_congr _ _ _ _ hcong]

theorem recalc_foldl_eq (acts : List ActivityT) (ivs : List (Nat × Nat)) :
    ∀ (st : RouteState) (acc mx : Int),
    ivs.foldl (intervalStep acts) (st, acc, mx) =
      ({ st with current := applyW st.current (recalcData acts acc mx ivs).cp,
                 maxPast := applyW st.maxPast (recalcData acts acc mx ivs).pp,
                 maxFuture := applyW st.maxFuture (recalcData acts acc mx ivs).fp },
       (recalcData acts acc mx ivs).accF, (recalcData acts acc mx ivs).mxF) := by
  induction ivs with
  | nil => intro st acc mx; rfl
  | cons iv r ih =>
    intro st acc mx
    rw [List.foldl_cons, intervalStep_eq, ih]
    simp only [recalcData, applyW_append]

/-- Normal form of `recalculate_states`: the produced state is the input
state overlaid with the pure write lists, plus the `MAX_LOAD` route state. -/
theorem recalculate_states_eq (acts : List ActivityT) (ivs : List (Nat × Nat))
    (capacity : Option Int) (st : RouteState) :
    recalculate_states acts ivs capacity st =
      { current := applyW st.current (recalcData acts 0 0 ivs).cp,
        maxPast := applyW st.maxPast (recalcData acts 0 0 ivs).pp,
        maxFuture := applyW st.maxFuture (recalcData acts 0 0 ivs).fp,
        maxLoad :=
          match capacity with
          | some c => some (((recalcData acts 0 0 ivs).mxF : ℚ) / (c : ℚ))
          | none => st.maxLoad } := by
  cases capacity with
  | none => simp only [recalculate_states, recalc_foldl_eq]
  | some c => simp only [recalculate_states, recalc_foldl_eq]

/-- C9: `accept_route_state` (which is exactly `recalculate_states`) is
idempotent: running it twice yields per-route and per-activity state values
identical to running it once, for every tour, interval decomposition,
capacity, and starting state. -/
theorem C9_recalculate_states_idempotent (acts : List ActivityT)
    (ivs : List (Nat × Nat)) (capacity : Option Int) (st : RouteState) :
    recalculate_states acts ivs capacity (recalculate_states acts ivs capacity st) =
      recalculate_states acts ivs capacity st := by
  rw [recalculate_states_eq, recalculate_states_eq]
  cases capacity with
  | none => simp [applyW_applyW]
  | some c => simp [applyW_applyW]

theorem lookW_append (l1 l2 : List (Nat × Int)) (j : Nat) :
    lookW (l1 ++ l2) j =
      match lookW l2 j with | some v => some v | none => lookW l1 j := by
  induction l1 with
  | nil => cases h : lookW l2 j <;> simp [lookW, h]
  | cons e r ih =>
    show (match lookW (r ++ l2) j with
      | some v => some v
      | none => if j = e.1 then some e.2 else none) = _
    rw [ih]
    cases h2 : lookW l2 j <;> cases h1 : lookW r j <;> simp [lookW, h1]

theorem lookW_mem (l : List (Nat × Int)) (j : Nat) (v : Int)
    (h : lookW l j = some v) : (j, v) ∈ l := by
  induction l with
  | nil => simp [lookW] at h
  | cons e r ih =>
    rw [lookW] at h
    cases hr : lookW r j with
    | some w =>
      rw [hr] at h
      have hwv : w = v := by simpa using h
      exact List.mem_cons_of_mem e (ih (hwv ▸ hr))
    | none =>
      rw [hr] at h
      by_cases hj : j = e.1
      · rw [if_pos hj] at h
        have h2 : e.2 = v := by simpa using h
        have h3 : (j, v) = e := by
          rw [hj, ← h2]
        rw [h3]
        exact List.mem_cons_self e r
      · rw [if_neg hj] at h
        exact absurd h (by simp)

theorem key_unique {β : Type} (l : List (Nat × β)) (j : Nat) (a b : β)
    (hnd : (l.map (fun e => e.1)).Nodup) (ha : (j, a) ∈ l) (hb : (j, b) ∈ l) :
    a = b := by
  induction l with
  | nil => simp at ha
  | cons e r ih =>
    simp only [List.map_cons, List.nodup_cons] at hnd
    rcases List.mem_cons.1 ha with ha1 | ha1 <;> rcases List.mem_cons.1 hb with hb1 | hb1
    · have hab := ha1.trans hb1.symm
      simp only [Prod.mk.injEq, true_and] at hab
      exact hab
    · exfalso
      have hj : e.1 = j := by rw [← ha1]
      have hm : j ∈ r.map (fun e => e.1) := List.mem_map_of_mem (fun e => e.1) hb1
      exact hnd.1 (hj ▸ hm)
    · exfalso
      have hj : e.1 = j := by rw [← hb1]
      have hm : j ∈ r.map (fun e => e.1) := List.mem_map_of_mem (fun e => e.1) ha1
      exact hnd.1 (hj ▸ hm)
    · exact ih hnd.2 ha1 hb1

theorem leftList_entry (ps : List (Nat × ActivityT)) :
    ∀ (c0 m0 : Int) (e : Nat × Int × Int), e ∈ leftList c0 m0 ps →
    e.2.1 ≤ e.2.2 ∧ m0 ≤ e.2.2 := by
  induction ps with
  | nil => intro _ _ _ h; simp [leftList] at h
  | cons ia r ih =>
    intro c0 m0 e he
    rcases List.mem_cons.1 he with he1 | he1
    · rw [he1]
      exact ⟨le_max_right _ _, le_max_left _ _⟩
    · obtain ⟨h1, h2⟩ := ih _ _ _ he1
      exact ⟨h1, le_trans (le_max_left _ _) h2⟩

theorem rightList_entry (qs : List (Nat × ActivityT)) :
    ∀ (g : Nat → Option Int) (m0 : Int) (e : Nat × Int), e ∈ rightList g m0 qs →
    (g e.1).getD 0 ≤ e.2 := by
  induction qs with
  | nil => intro _ _ _ h; simp [rightList] at h
  | cons ia r ih =>
    intro g m0 e he
    rcases List.mem_cons.1 he with he1 | he1
    · rw [he1]
      exact le_max_right _ _
    · exact ih _ _ _ he1

theorem rightList_keys (qs : List (Nat × ActivityT)) :
    ∀ (g : Nat → Option Int) (m0 : Int),
    (rightList g m0 qs).map (fun e => e.1) = qs.map (fun e => e.1) := by
  induction qs with
  | nil => intro _ _; rfl
  | cons ia r ih => intro g m0; simp only [rightList, List.map_cons, ih]

theorem pPairs_keys (ps : List (Nat × ActivityT)) (c0 m0 : Int) :
    (pPairs c0 m0 ps).map (fun e => e.1) = ps.map (fun e => e.1) := by
  rw [pPairs, List.map_map]
  exact leftList_keys ps c0 m0

theorem slicePairs_keys (acts : List ActivityT) (s e : Nat) :
    (slicePairs acts s e).map (fun x => x.1) = List.range' s (e + 1 - s) := by
  simp only [slicePairs, List.map_map]
  have h : ((fun x : Nat × ActivityT => x.1) ∘ fun i => (i, acts.getD i ⟨none⟩)) =
      fun i => i := rfl
  rw [h, List.map_id']

theorem intervalData_cp_def (acts : List ActivityT) (acc : Int) (iv : Nat × Nat) :
    (intervalData acts acc iv).cp =
      cPairs (staticSums acc (slicePairs acts iv.1 iv.2)).1 0 (slicePairs acts iv.1 iv.2) := rfl

theorem intervalData_pp_def (acts : List ActivityT) (acc : Int) (iv : Nat × Nat) :
    (intervalData acts acc iv).pp =
      pPairs (staticSums acc (slicePairs acts iv.1 iv.2)).1 0 (slicePairs acts iv.1 iv.2) := rfl

theorem intervalData_fp_def (acts : List ActivityT) (acc : Int) (iv : Nat × Nat) :
    (intervalData acts acc iv).fp =
      rightList (fun i => lookW (intervalData acts acc iv).cp i)
        (leftFin (staticSums acc (slicePairs acts iv.1 iv.2)).1 0 (slicePairs acts iv.1 iv.2)).1
        (slicePairs acts iv.1 iv.2).reverse := rfl

theorem intervalData_cp_keys (acts : List ActivityT) (acc : Int) (iv : Nat × Nat) :
    (intervalData acts acc iv).cp.map (fun e => e.1) =
      List.range' iv.1 (iv.2 + 1 - iv.1) := by
  rw [intervalData_cp_def, cPairs_keys, slicePairs_keys]

theorem intervalData_pp_keys (acts : List ActivityT) (acc : Int) (iv : Nat × Nat) :
    (intervalData acts acc iv).pp.map (fun e => e.1) =
      List.range' iv.1 (iv.2 + 1 - iv.1) := by
  rw [intervalData_pp_def, pPairs_keys, slicePairs_keys]

theorem intervalData_fp_keys (acts : List ActivityT) (acc : Int) (iv : Nat × Nat) :
    (intervalData acts acc iv).fp.map (fun e => e.1) =
      (List.range' iv.1 (iv.2 + 1 - iv.1)).reverse := by
  rw [intervalData_fp_def, rightList_keys, List.map_reverse, slicePairs_keys]

/-- The nodup property of the slice keys carried to `leftList`. -/
theorem leftList_keys_nodup (acts : List ActivityT) (s e : Nat) (c0 m0 : Int) :
    ((leftList c0 m0 (slicePairs acts s e)).map (fun x => x.1)).Nodup := by
  rw [leftList_keys, slicePairs_keys]
  exact List.nodup_range' s (e + 1 - s)

/-- Within one interval, every covered index receives `CURRENT`, `MAX_PAST`
and `MAX_FUTURE` writes with `CURRENT ≤ MAX_PAST`, `0 ≤ MAX_PAST` and
`CURRENT ≤ MAX_FUTURE`. -/
theorem intervalData_lookup (acts : List ActivityT) (acc : Int) (iv : Nat × Nat) (j : Nat)
    (hj1 : iv.1 ≤ j) (hj2 : j ≤ iv.2) :
    ∃ c p fv, lookW (intervalData acts acc iv).cp j = some c ∧
              lookW (intervalData acts acc iv).pp j = some p ∧
              lookW (intervalData acts acc iv).fp j = some fv ∧
              c ≤ p ∧ 0 ≤ p ∧ c ≤ fv := by
  have hbound : j ∈ List.range' iv.1 (iv.2 + 1 - iv.1) := by
    rw [List.mem_range'_1]
    omega
  have hmc : j ∈ (intervalData acts acc iv).cp.map (fun e => e.1) := by
    rw [intervalData_cp_keys]; exact hbound
  have hmp : j ∈ (intervalData acts acc iv).pp.map (fun e => e.1) := by
    rw [intervalData_pp_keys]; exact hbound
  have hmf : j ∈ (intervalData acts acc iv).fp.map (fun e => e.1) := by
    rw [intervalData_fp_keys]; exact List.mem_reverse.2 hbound
  obtain ⟨c, hc⟩ := Option.isSome_iff_exists.1 (lookW_isSome_of_mem _ _ hmc)
  obtain ⟨p, hp⟩ := Option.isSome_iff_exists.1 (lookW_isSome_of_mem _ _ hmp)
  obtain ⟨fv, hf⟩ := Option.isSome_iff_exists.1 (lookW_isSome_of_mem _ _ hmf)
  refine ⟨c, p, fv, hc, hp, hf, ?_, ?_, ?_⟩
  · -- c ≤ p via the unique leftList entry at j
    have hcm := lookW_mem _ _ _ hc
    have hpm := lookW_mem _ _ _ hp
    rw [intervalData_cp_def, cPairs] at hcm
    rw [intervalData_pp_def, pPairs] at hpm
    rcases List.mem_map.1 hcm with ⟨⟨j1, c1, m1⟩, heL1, hef1⟩
    rcases List.mem_map.1 hpm with ⟨⟨j2, c2, m2⟩, heL2, hef2⟩
    simp only [Prod.mk.injEq] at hef1 hef2
    obtain ⟨hj1e, hc1e⟩ := hef1
    obtain ⟨hj2e, hm2e⟩ := hef2
    rw [hj1e, hc1e] at heL1
    rw [hj2e, hm2e] at heL2
    have hnd := leftList_keys_nodup acts iv.1 iv.2
      (staticSums acc (slicePairs acts iv.1 iv.2)).1 0
    have hu := key_unique _ j (c, m1) (c2, p) hnd heL1 heL2
    simp only [Prod.mk.injEq] at hu
    obtain ⟨hcc, hmm⟩ := hu
    have hent := leftList_entry _ _ _ _ heL1
    simp only at hent
    rw [hmm] at hent
    exact hent.1
  · -- 0 ≤ p : the seed of MAX_PAST within an interval is T::default() = 0
    have hpm := lookW_mem _ _ _ hp
    rw [intervalData_pp_def, pPairs] at hpm
    rcases List.mem_map.1 hpm with ⟨⟨j2, c2, m2⟩, heL2, hef2⟩
    simp only [Prod.mk.injEq] at hef2
    obtain ⟨hj2e, hm2e⟩ := hef2
    rw [hj2e, hm2e] at heL2
    exact (leftList_entry _ _ _ _ heL2).2
  · -- c ≤ fv : MAX_FUTURE at j is a max over a set containing CURRENT[j]
    have hfm := lookW_mem _ _ _ hf
    rw [intervalData_fp_def] at hfm
    have hent := rightList_entry _ _ _ _ hfm
    simp only [hc, Option.getD_some] at hent
    exact hent

theorem recalcData_cons (acts : List ActivityT) (acc mx : Int) (iv : Nat × Nat)
    (r : List (Nat × Nat)) :
    recalcData acts acc mx (iv :: r) =
      { cp := (intervalData acts acc iv).cp ++
          (recalcData acts (intervalData acts acc iv).accN
            (max (intervalData acts acc iv).rmax mx) r).cp,
        pp := (intervalData acts acc iv).pp ++
          (recalcData acts (intervalData acts acc iv).accN
            (max (intervalData acts acc iv).rmax mx) r).pp,
        fp := (intervalData acts acc iv).fp ++
          (recalcData acts (intervalData acts acc iv).accN
            (max (intervalData acts acc iv).rmax mx) r).fp,
        accF := (recalcData acts (intervalData acts acc iv).accN
            (max (intervalData acts acc iv).rmax mx) r).accF,
        mxF := (recalcData acts (intervalData acts acc iv).accN
            (max (intervalData acts acc iv).rmax mx) r).mxF } := rfl

/-- All indices written by the fold over a chain starting at `t` are `≥ t`. -/
theorem recalcData_key_lb (acts : List ActivityT) (ivs : List (Nat × Nat)) :
    ∀ (t n : Nat) (acc mx : Int), chainFrom t ivs n = true →
    (∀ x ∈ (recalcData acts acc mx ivs).cp, t ≤ x.1) ∧
    (∀ x ∈ (recalcData acts acc mx ivs).pp, t ≤ x.1) ∧
    (∀ x ∈ (recalcData acts acc mx ivs).fp, t ≤ x.1) := by
  induction ivs with
  | nil =>
    intro t n acc mx _
    refine ⟨?_, ?_, ?_⟩ <;> intro x hx <;> simp [recalcData] at hx
  | cons iv r ih =>
    intro t n acc mx hchain
    simp only [chainFrom, Bool.and_eq_true, beq_iff_eq, decide_eq_true_eq] at hchain
    obtain ⟨⟨h1, h2⟩, h3⟩ := hchain
    have hrest := ih (iv.2 + 1) n (intervalData acts acc iv).accN
      (max (intervalData acts acc iv).rmax mx) h3
    have hhead : ∀ (l : List (Nat × Int)),
        l.map (fun e => e.1) = List.range' iv.1 (iv.2 + 1 - iv.1) →
        ∀ x ∈ l, t ≤ x.1 := by
      intro l hkeys x hx
      have hm : x.1 ∈ List.range' iv.1 (iv.2 + 1 - iv.1) := by
        rw [← hkeys]
        exact List.mem_map_of_mem (fun e => e.1) hx
      rw [List.mem_range'_1] at hm
      omega
    rw [recalcData_cons]
    refine ⟨?_, ?_, ?_⟩ <;> intro x hx <;> rcases List.mem_append.1 hx with hx1 | hx1
    · exact hhead _ (intervalData_cp_keys acts acc iv) x hx1
    · have := hrest.1 x hx1
      omega
    · exact hhead _ (intervalData_pp_keys acts acc iv) x hx1
    · have := hrest.2.1 x hx1
      omega
    · have hm : x.1 ∈ (List.range' iv.1 (iv.2 + 1 - iv.1)).reverse := by
        rw [← intervalData_fp_keys acts acc iv]
        exact List.mem_map_of_mem (fun e => e.1) hx1
      rw [List.mem_reverse, List.mem_range'_1] at hm
      omega
    · have := hrest.2.2 x hx1
      omega

/-- Over a chain covering `[s, n)`, every index `s ≤ j < n` is written in all
three maps, with `CURRENT ≤ MAX_PAST`, `0 ≤ MAX_PAST`, `CURRENT ≤ MAX_FUTURE`. -/
theorem recalcData_covers (acts : List ActivityT) (ivs : List (Nat × Nat)) :
    ∀ (s n : Nat) (acc mx : Int) (j : Nat),
    chainFrom s ivs n = true → s ≤ j → j < n →
    ∃ c p fv, lookW (recalcData acts acc mx ivs).cp j = some c ∧
              lookW (recalcData acts acc mx ivs).pp j = some p ∧
              lookW (recalcData acts acc mx ivs).fp j = some fv ∧
              c ≤ p ∧ 0 ≤ p ∧ c ≤ fv := by
  induction ivs with
  | nil =>
    intro s n acc mx j hchain hs hn
    simp only [chainFrom, beq_iff_eq] at hchain
    omega
  | cons iv r ih =>
    intro s n acc mx j hchain hs hn
    simp only [chainFrom, Bool.and_eq_true, beq_iff_eq, decide_eq_true_eq] at hchain
    obtain ⟨⟨h1, h2⟩, h3⟩ := hchain
    have hlb := recalcData_key_lb acts r (iv.2 + 1) n (intervalData acts acc iv).accN
      (max (intervalData acts acc iv).rmax mx) h3
    by_cases hj2 : j ≤ iv.2
    · -- j lies in the head interval; the tail writes only indices > iv.2
      have hnone : ∀ (l : List (Nat × Int)), (∀ x ∈ l, iv.2 + 1 ≤ x.1) →
          lookW l j = none := by
        intro l hl
        cases hv : lookW l j with
        | none => rfl
        | some w =>
          have := hl _ (lookW_mem _ _ _ hv)
          omega
      obtain ⟨c, p, fv, hc, hp, hf, hcp, hp0, hcf⟩ :=
        intervalData_lookup acts acc iv j (by omega) hj2
      refine ⟨c, p, fv, ?_, ?_, ?_, hcp, hp0, hcf⟩ <;>
        rw [recalcData_cons] <;> rw [lookW_append]
      · rw [hnone _ hlb.1, hc]
      · rw [hnone _ hlb.2.1, hp]
      · rw [hnone _ hlb.2.2, hf]
    · -- j lies in a later interval
      obtain ⟨c, p, fv, hc, hp, hf, hcp, hp0, hcf⟩ :=
        ih (iv.2 + 1) n (intervalData acts acc iv).accN
          (max (intervalData acts acc iv).rmax mx) j h3 (by omega) hn
      refine ⟨c, p, fv, ?_, ?_, ?_, hcp, hp0, hcf⟩ <;>
        rw [recalcData_cons] <;> rw [lookW_append]
      · rw [hc]
      · rw [hp]
      · rw [hf]

/-- C8 counterexample route: start activity, then the delivery piece of a
pickup-delivery pair (dynamic delivery of size one), then the end activity. -/
def c8acts : List ActivityT :=
  [⟨none⟩, ⟨some ⟨some ⟨0, 0, 0, 1⟩, false, false⟩⟩, ⟨none⟩]

/-- C8 counterexample: after recalculation over the single interval `(0, 2)`,
the recorded `CURRENT` at the dynamic-delivery activity is `-1 < 0`, refuting
`0 ≤ CURRENT[a]`. -/
theorem C8_counterexample :
    (recalculate_states c8acts [(0, 2)] (some 10) emptySt).current 1 = some (-1) ∧
      ¬ (0 : Int) ≤ -1 := by
  constructor
  · decide
  · decide

/-- C8 (amended): for every route on which the capacity module has
recalculated state (over any chain of intervals covering the tour) and every
activity index `j` of the route, the recorded states satisfy
`CURRENT[j] ≤ MAX_PAST[j]`, `0 ≤ MAX_PAST[j]` and `CURRENT[j] ≤ MAX_FUTURE[j]`
(the claim's lower bound `0 ≤ CURRENT[j]` holds of `MAX_PAST`, not of
`CURRENT`, which can go negative under dynamic deliveries). -/
theorem C8_state_invariants (acts : List ActivityT) (ivs : List (Nat × Nat))
    (capacity : Option Int) (st : RouteState) (j : Nat)
    (hchain : chainFrom 0 ivs acts.length = true) (hj : j < acts.length) :
    ∃ c p fv, (recalculate_states acts ivs capacity st).current j = some c ∧
              (recalculate_states acts ivs capacity st).maxPast j = some p ∧
              (recalculate_states acts ivs capacity st).maxFuture j = some fv ∧
              c ≤ p ∧ 0 ≤ p ∧ c ≤ fv := by
  obtain ⟨c, p, fv, hc, hp, hf, hcp, hp0, hcf⟩ :=
    recalcData_covers acts ivs 0 acts.length 0 0 j hchain (Nat.zero_le j) hj
  refine ⟨c, p, fv, ?_, ?_, ?_, hcp, hp0, hcf⟩ <;>
    rw [recalculate_states_eq] <;> simp only
  · exact applyW_hit _ _ _ _ hc
  · exact applyW_hit _ _ _ _ hp
  · exact applyW_hit _ _ _ _ hf

def listMaxD (a : Int) (l : List Int) : Int := l.foldl max a

theorem listMaxD_append (a : Int) (l1 l2 : List Int) :
    listMaxD a (l1 ++ l2) = listMaxD (listMaxD a l1) l2 := by
  simp [listMaxD, List.foldl_append]

theorem listMaxD_pull (l : List Int) : ∀ (a c : Int),
    listMaxD (max a c) l = max c (listMaxD a l) := by
  induction l with
  | nil => intro a c; simp [listMaxD, max_comm]
  | cons x r ih =>
    intro a c
    show listMaxD (max (max a c) x) r = max c (listMaxD (max a x) r)
    rw [sup_right_comm a c x]
    exact ih (max a x) c

theorem listMaxD_le (l : List Int) : ∀ (a : Int), a ≤ listMaxD a l := by
  induction l with
  | nil => intro a; exact le_refl a
  | cons x r ih =>
    intro a
    exact le_trans (le_max_left a x) (ih (max a x))

theorem mem_le_listMaxD (l : List Int) : ∀ (a x : Int), x ∈ l → x ≤ listMaxD a l := by
  induction l with
  | nil => intro a x h; simp at h
  | cons y r ih =>
    intro a x h
    rcases List.mem_cons.1 h with h1 | h1
    · rw [h1]
      exact le_trans (le_max_right a y) (listMaxD_le r (max a y))
    · exact ih (max a y) x h1

theorem listMaxD_cases (l : List Int) : ∀ (a : Int),
    listMaxD a l = a ∨ listMaxD a l ∈ l := by
  induction l with
  | nil => intro a; exact Or.inl rfl
  | cons x r ih =>
    intro a
    rcases ih (max a x) with h | h
    · rcases max_choice a x with h2 | h2
      · exact Or.inl (by rw [listMaxD] at h ⊢; rw [List.foldl_cons, h, h2])
      · refine Or.inr (List.mem_cons_self x r |> fun hm => ?_)
        have : listMaxD a (x :: r) = x := by rw [listMaxD] at h ⊢; rw [List.foldl_cons, h, h2]
        rw [this]
        exact List.mem_cons_self x r
    · exact Or.inr (List.mem_cons_of_mem x h)

theorem listMaxD_absorb (l : List Int) (x b : Int) (hx : x ∈ l) :
    max b (listMaxD x l) = listMaxD b l := by
  apply le_antisymm
  · apply max_le
    · exact listMaxD_le l b
    · rcases listMaxD_cases l x with h | h
      · rw [h]
        exact mem_le_listMaxD l b x hx
      · exact mem_le_listMaxD l b _ h
  · rcases listMaxD_cases l b with h | h
    · rw [h]
      exact le_max_left b _
    · exact le_trans (mem_le_listMaxD l x _ h) (le_max_right b _)

theorem listMaxD_reverse (l : List Int) : ∀ (a : Int),
    listMaxD a l.reverse = listMaxD a l := by
  induction l with
  | nil => intro a; rfl
  | cons x r ih =>
    intro a
    rw [List.reverse_cons, listMaxD_append]
    show max (listMaxD a r.reverse) x = listMaxD (max a x) r
    rw [ih, listMaxD_pull, max_comm]

theorem lookW_of_mem_nodup (l : List (Nat × Int)) (j : Nat) (v : Int)
    (hnd : (l.map (fun e => e.1)).Nodup) (hm : (j, v) ∈ l) : lookW l j = some v := by
  have hj : j ∈ l.map (fun e => e.1) := List.mem_map_of_mem (fun e => e.1) hm
  obtain ⟨w, hw⟩ := Option.isSome_iff_exists.1 (lookW_isSome_of_mem l j hj)
  have hwv := key_unique l j w v hnd (lookW_mem _ _ _ hw) hm
  rw [hw, hwv]

theorem store_vals_of_nodup (f : Nat → Option Int) (cp : List (Nat × Int))
    (hnd : (cp.map (fun e => e.1)).Nodup) :
    (cp.map (fun e => e.1)).map (fun j => applyW f cp j) = cp.map (fun e => some e.2) := by
  rw [List.map_map]
  apply List.map_congr_left
  intro e he
  exact applyW_hit _ _ _ _ (lookW_of_mem_nodup cp e.1 e.2 hnd he)

theorem reads_eq_vals (ps : List (Nat × ActivityT)) (cp : List (Nat × Int))
    (hkeys : cp.map (fun e => e.1) = ps.map (fun e => e.1))
    (hnd : (cp.map (fun e => e.1)).Nodup) :
    ps.map (fun ia => (lookW cp ia.1).getD 0) = cp.map (fun e => e.2) := by
  have h1 : ps.map (fun ia => (lookW cp ia.1).getD 0) =
      (ps.map (fun e => e.1)).map (fun j => (lookW cp j).getD 0) := by
    rw [List.map_map]
    rfl
  rw [h1, ← hkeys, List.map_map]
  apply List.map_congr_left
  intro e he
  show (lookW cp e.1).getD 0 = e.2
  rw [lookW_of_mem_nodup cp e.1 e.2 hnd he]
  rfl

theorem rightFin_eq_listMaxD (qs : List (Nat × ActivityT)) :
    ∀ (g : Nat → Option Int) (m0 : Int),
    rightFin g m0 qs = listMaxD m0 (qs.map (fun ia => (g ia.1).getD 0)) := by
  induction qs with
  | nil => intro g m0; rfl
  | cons ia r ih =>
    intro g m0
    simp only [rightFin, List.map_cons]
    rw [ih]
    rfl

theorem leftFin_mem (ps : List (Nat × ActivityT)) : ∀ (c0 m0 : Int), ps ≠ [] →
    (leftFin c0 m0 ps).1 ∈ (leftList c0 m0 ps).map (fun e => e.2.1) := by
  induction ps with
  | nil => intro c0 m0 h; exact absurd rfl h
  | cons ia r ih =>
    intro c0 m0 _
    by_cases hr : r = []
    · rw [hr]
      simp [leftFin, leftList]
    · simp only [leftFin, leftList, List.map_cons]
      exact List.mem_cons_of_mem _ (ih _ _ hr)

theorem chainFrom_le (ivs : List (Nat × Nat)) : ∀ (t n : Nat),
    chainFrom t ivs n = true → t ≤ n := by
  induction ivs with
  | nil =>
    intro t n h
    simp only [chainFrom, beq_iff_eq] at h
    omega
  | cons iv r ih =>
    intro t n h
    simp only [chainFrom, Bool.and_eq_true, beq_iff_eq, decide_eq_true_eq] at h
    have := ih (iv.2 + 1) n h.2
    omega

theorem intervalData_rmax_def (acts : List ActivityT) (acc : Int) (iv : Nat × Nat) :
    (intervalData acts acc iv).rmax =
      rightFin (fun i => lookW (intervalData acts acc iv).cp i)
        (leftFin (staticSums acc (slicePairs acts iv.1 iv.2)).1 0 (slicePairs acts iv.1 iv.2)).1
        (slicePairs acts iv.1 iv.2).reverse := rfl

theorem cPairs_vals (ps : List (Nat × ActivityT)) (c0 m0 : Int) :
    (cPairs c0 m0 ps).map (fun e => e.2) = (leftList c0 m0 ps).map (fun e => e.2.1) := by
  rw [cPairs, List.map_map]
  rfl

theorem intervalData_cp_keys_nodup (acts : List ActivityT) (acc : Int) (iv : Nat × Nat) :
    ((intervalData acts acc iv).cp.map (fun e => e.1)).Nodup := by
  rw [intervalData_cp_keys]
  exact List.nodup_range' iv.1 (iv.2 + 1 - iv.1)

theorem intervalData_rmax_eq (acts : List ActivityT) (acc : Int) (iv : Nat × Nat)
    (h : iv.1 ≤ iv.2) (mx : Int) :
    max (intervalData acts acc iv).rmax mx =
      listMaxD mx ((intervalData acts acc iv).cp.map (fun e => e.2)) := by
  have hkeys : (intervalData acts acc iv).cp.map (fun e => e.1) =
      (slicePairs acts iv.1 iv.2).map (fun e => e.1) := by
    rw [intervalData_cp_def, cPairs_keys]
  have hnd := intervalData_cp_keys_nodup acts acc iv
  have hreads := reads_eq_vals (slicePairs acts iv.1 iv.2) (intervalData acts acc iv).cp
    hkeys hnd
  rw [intervalData_rmax_def, rightFin_eq_listMaxD, List.map_reverse, listMaxD_reverse]
  have hbeta : (slicePairs acts iv.1 iv.2).map
      (fun ia => ((fun i => lookW (intervalData acts acc iv).cp i) ia.1).getD 0) =
      (slicePairs acts iv.1 iv.2).map
      (fun ia => (lookW (intervalData acts acc iv).cp ia.1).getD 0) := rfl
  rw [hbeta, hreads, max_comm]
  apply listMaxD_absorb
  -- the left sweep's final current is the last recorded CURRENT value
  have hne : slicePairs acts iv.1 iv.2 ≠ [] := by
    have : (slicePairs acts iv.1 iv.2).length = iv.2 + 1 - iv.1 := by
      rw [slicePairs, List.length_map, List.length_range']
    intro hcontra
    rw [hcontra] at this
    simp at this
    omega
  rw [intervalData_cp_def, cPairs_vals]
  exact leftFin_mem _ _ _ hne

theorem recalcData_mxF_eq (acts : List ActivityT) (ivs : List (Nat × Nat)) :
    ∀ (s n : Nat) (acc mx : Int), chainFrom s ivs n = true →
    (recalcData acts acc mx ivs).mxF =
      listMaxD mx ((recalcData acts acc mx ivs).cp.map (fun e => e.2)) := by
  induction ivs with
  | nil => intro s n acc mx _; rfl
  | cons iv r ih =>
    intro s n acc mx hchain
    simp only [chainFrom, Bool.and_eq_true, beq_iff_eq, decide_eq_true_eq] at hchain
    obtain ⟨⟨h1, h2⟩, h3⟩ := hchain
    have hrm := intervalData_rmax_eq acts acc iv (by omega) mx
    rw [recalcData_cons]
    simp only
    rw [ih (iv.2 + 1) n _ _ h3, List.map_append, listMaxD_append, ← hrm]

theorem filterMap_of_map_some {α β : Type} (l : List α) (g : α → Option β) :
    ∀ (vals : List β), l.map g = vals.map some → l.filterMap g = vals := by
  induction l with
  | nil =>
    intro vals h
    cases vals with
    | nil => rfl
    | cons v vr => simp at h
  | cons x r ih =>
    intro vals h
    cases vals with
    | nil => simp at h
    | cons v vr =>
      simp only [List.map_cons, List.cons.injEq] at h
      rw [List.filterMap_cons, h.1]
      rw [ih vr h.2]

theorem store_range_eq (acts : List ActivityT) (ivs : List (Nat × Nat)) :
    ∀ (s n : Nat) (acc mx : Int) (f : Nat → Option Int), chainFrom s ivs n = true →
    (List.range' s (n - s)).map (applyW f (recalcData acts acc mx ivs).cp) =
      (recalcData acts acc mx ivs).cp.map (fun e => some e.2) := by
  induction ivs with
  | nil =>
    intro s n acc mx f hchain
    simp only [chainFrom, beq_iff_eq] at hchain
    rw [hchain]
    simp [recalcData]
  | cons iv r ih =>
    intro s n acc mx f hchain
    simp only [chainFrom, Bool.and_eq_true, beq_iff_eq, decide_eq_true_eq] at hchain
    obtain ⟨⟨h1, h2⟩, h3⟩ := hchain
    have hn : iv.2 + 1 ≤ n := chainFrom_le r (iv.2 + 1) n h3
    have h5 : s + 1 * (iv.2 + 1 - s) = iv.2 + 1 := by omega
    have h6 : n - (iv.2 + 1) + (iv.2 + 1 - s) = n - s := by omega
    have hsplit : List.range' s (n - s) =
        List.range' s (iv.2 + 1 - s) ++ List.range' (iv.2 + 1) (n - (iv.2 + 1)) := by
      calc List.range' s (n - s)
          = List.range' s (n - (iv.2 + 1) + (iv.2 + 1 - s)) := by rw [h6]
        _ = List.range' s (iv.2 + 1 - s) ++
              List.range' (s + 1 * (iv.2 + 1 - s)) (n - (iv.2 + 1)) :=
            (List.range'_append s (iv.2 + 1 - s) (n - (iv.2 + 1)) 1).symm
        _ = List.range' s (iv.2 + 1 - s) ++ List.range' (iv.2 + 1) (n - (iv.2 + 1)) := by
            rw [h5]
    have hlb := recalcData_key_lb acts r (iv.2 + 1) n (intervalData acts acc iv).accN
      (max (intervalData acts acc iv).rmax mx) h3
    rw [recalcData_cons]
    simp only
    rw [hsplit, List.map_append, List.map_append]
    have hcong : ∀ j ∈ List.range' s (iv.2 + 1 - s),
        applyW f ((intervalData acts acc iv).cp ++
          (recalcData acts (intervalData acts acc iv).accN
            (max (intervalData acts acc iv).rmax mx) r).cp) j =
        applyW f (intervalData acts acc iv).cp j := by
      intro j hj
      rw [List.mem_range'_1] at hj
      rw [applyW_append]
      have hnone : lookW (recalcData acts (intervalData acts acc iv).accN
          (max (intervalData acts acc iv).rmax mx) r).cp j = none := by
        cases hv : lookW (recalcData acts (intervalData acts acc iv).accN
            (max (intervalData acts acc iv).rmax mx) r).cp j with
        | none => rfl
        | some w =>
          have := hlb.1 _ (lookW_mem _ _ _ hv)
          omega
      exact applyW_miss _ _ _ hnone
    rw [List.map_congr_left hcong]
    have hfirst : (List.range' s (iv.2 + 1 - s)).map (applyW f (intervalData acts acc iv).cp) =
        (intervalData acts acc iv).cp.map (fun e => some e.2) := by
      have hkr : List.range' s (iv.2 + 1 - s) =
          (intervalData acts acc iv).cp.map (fun e => e.1) := by
        rw [intervalData_cp_keys, h1]
      rw [hkr]
      exact store_vals_of_nodup f _ (intervalData_cp_keys_nodup acts acc iv)
    have hsecond := ih (iv.2 + 1) n (intervalData acts acc iv).accN
      (max (intervalData acts acc iv).rmax mx) (applyW f (intervalData acts acc iv).cp) h3
    have hfun : applyW f ((intervalData acts acc iv).cp ++
        (recalcData acts (intervalData acts acc iv).accN
          (max (intervalData acts acc iv).rmax mx) r).cp) =
        applyW (applyW f (intervalData acts acc iv).cp)
          (recalcData acts (intervalData acts acc iv).accN
            (max (intervalData acts acc iv).rmax mx) r).cp := applyW_append _ _ _
    rw [hfirst, hfun, hsecond]

/-- The maximum of a list of values, `none` when empty. -/
def listMax? : List Int → Option Int
  | [] => none
  | x :: r => some (listMaxD x r)

/-- `max_over_activities(CURRENT)`: the maximum recorded `CURRENT` value over
the route's activity indices. -/
def maxOverCurrent (st : RouteState) (n : Nat) : Option Int :=
  listMax? ((List.range n).filterMap st.current)

/-- C4 counterexample route 1: one activity holding the delivery piece of a
pickup-delivery pair (dynamic delivery of size one). -/
def c4actsNeg : List ActivityT := [⟨some ⟨some ⟨0, 0, 0, 1⟩, false, false⟩⟩]

/-- C4 counterexample route 2: one activity with a static pickup of size one,
on a vehicle declaring capacity `0`. -/
def c4actsPos : List ActivityT := [⟨some ⟨some ⟨1, 0, 0, 0⟩, false, false⟩⟩]

/-- C4 counterexample: (1) when every recorded `CURRENT` is negative (a
dynamic delivery), `max_over_activities(CURRENT) = -1` while
`MAX_LOAD·capacity = 0`, because the fold seeds the maximum with
`T::default() = 0`; (2) with a declared capacity of `0`,
`max_over_activities(CURRENT) = 1` while `MAX_LOAD·capacity = MAX_LOAD·0 ≠ 1`
whatever finite value the ratio takes. -/
theorem C4_counterexample :
    (maxOverCurrent (recalculate_states c4actsNeg [(0, 0)] (some 2) emptySt) 1 = some (-1) ∧
      (recalculate_states c4actsNeg [(0, 0)] (some 2) emptySt).maxLoad = some 0 ∧
      ¬ ((-1 : ℚ) = 0 * (2 : ℚ))) ∧
    (maxOverCurrent (recalculate_states c4actsPos [(0, 0)] (some 0) emptySt) 1 = some 1 ∧
      ¬ ((1 : ℚ) =
        ((recalculate_states c4actsPos [(0, 0)] (some 0) emptySt).maxLoad.getD 0) * (0 : ℚ))) := by
  refine ⟨⟨?_, ?_, ?_⟩, ?_, ?_⟩
  · decide
  · have hm : (recalcData c4actsNeg 0 0 [(0, 0)]).mxF = 0 := by decide
    rw [recalculate_states_eq]
    show some (((recalcData c4actsNeg 0 0 [(0, 0)]).mxF : ℚ) / ((2 : Int) : ℚ)) = some 0
    rw [hm]
    norm_num
  · norm_num
  · decide
  · simp

/-- C4 (amended): for every route whose vehicle declares a non-zero capacity,
after recalculation over a chain of intervals covering the tour,
`max(0, max_over_activities(CURRENT)) = MAX_LOAD · capacity` (exact
arithmetic; the `0` is the `T::default()` seed of the fold computing the
maximum observed load). -/
theorem C4_max_load (acts : List ActivityT) (ivs : List (Nat × Nat)) (st : RouteState)
    (c : Int) (hchain : chainFrom 0 ivs acts.length = true) (hne : acts ≠ [])
    (hc : c ≠ 0) :
    ∃ M q, maxOverCurrent (recalculate_states acts ivs (some c) st) acts.length = some M ∧
      (recalculate_states acts ivs (some c) st).maxLoad = some q ∧
      ((max 0 M : Int) : ℚ) = q * (c : ℚ) := by
  have hrange := store_range_eq acts ivs 0 acts.length 0 0 st.current hchain
  rw [Nat.sub_zero] at hrange
  have hcur : (recalculate_states acts ivs (some c) st).current =
      applyW st.current (recalcData acts 0 0 ivs).cp := by
    rw [recalculate_states_eq]
  have hvals : (recalcData acts 0 0 ivs).cp.map (fun e => some e.2) =
      ((recalcData acts 0 0 ivs).cp.map (fun e => e.2)).map some := by
    rw [List.map_map]
    rfl
  have hmap : (List.range acts.length).map
      ((recalculate_states acts ivs (some c) st).current) =
      ((recalcData acts 0 0 ivs).cp.map (fun e => e.2)).map some := by
    rw [hcur, List.range_eq_range', hrange, hvals]
  have hfm := filterMap_of_map_some (List.range acts.length)
    ((recalculate_states acts ivs (some c) st).current)
    ((recalcData acts 0 0 ivs).cp.map (fun e => e.2)) hmap
  have hlen : ((recalcData acts 0 0 ivs).cp.map (fun e => e.2)).length = acts.length := by
    have h2 := congrArg List.length hmap
    simp only [List.length_map, List.length_range] at h2
    rw [List.length_map, ← h2]
  have hvne : (recalcData acts 0 0 ivs).cp.map (fun e => e.2) ≠ [] := by
    intro h
    rw [h] at hlen
    simp only [List.length_nil] at hlen
    exact hne (List.length_eq_zero.1 hlen.symm)
  obtain ⟨v0, vr, hv⟩ : ∃ v0 vr,
      (recalcData acts 0 0 ivs).cp.map (fun e => e.2) = v0 :: vr := by
    cases hcase : (recalcData acts 0 0 ivs).cp.map (fun e => e.2) with
    | nil => exact absurd hcase hvne
    | cons v0 vr => exact ⟨v0, vr, rfl⟩
  have hmx : (recalcData acts 0 0 ivs).mxF = max 0 (listMaxD v0 vr) := by
    rw [recalcData_mxF_eq acts ivs 0 acts.length 0 0 hchain, hv]
    show listMaxD (max 0 v0) vr = _
    rw [max_comm 0 v0, listMaxD_pull]
  refine ⟨listMaxD v0 vr, ((recalcData acts 0 0 ivs).mxF : ℚ) / (c : ℚ), ?_, ?_, ?_⟩
  · rw [maxOverCurrent, hfm, hv]
    rfl
  · rw [recalculate_states_eq]
  · have hc2 : (c : ℚ) ≠ 0 := Int.cast_ne_zero.2 hc
    rw [div_mul_cancel₀ _ hc2, hmx]

/-- The C4 witness route: start, a static pickup of size one, end. -/
def c4actsW : List ActivityT := [⟨none⟩, ⟨some ⟨some ⟨1, 0, 0, 0⟩, false, false⟩⟩, ⟨none⟩]

theorem C4_max_load_witness :
    chainFrom 0 [(0, 2)] c4actsW.length = true ∧ c4actsW ≠ [] ∧ (2 : Int) ≠ 0 ∧
      ∃ M q, maxOverCurrent (recalculate_states c4actsW [(0, 2)] (some 2) emptySt)
          c4actsW.length = some M ∧
        (recalculate_states c4actsW [(0, 2)] (some 2) emptySt).maxLoad = some q ∧
        ((max 0 M : Int) : ℚ) = q * ((2 : Int) : ℚ) :=
  ⟨by decide, by decide, by decide,
    C4_max_load c4actsW [(0, 2)] emptySt 2 (by decide) (by decide) (by decide)⟩

theorem C8_state_invariants_witness :
    chainFrom 0 [(0, 2)] c8acts.length = true ∧ (1 : Nat) < c8acts.length ∧
      ∃ c p fv, (recalculate_states c8acts [(0, 2)] (some 10) emptySt).current 1 = some c ∧
        (recalculate_states c8acts [(0, 2)] (some 10) emptySt).maxPast 1 = some p ∧
        (recalculate_states c8acts [(0, 2)] (some 10) emptySt).maxFuture 1 = some fv ∧
        c ≤ p ∧ 0 ≤ p ∧ c ≤ fv :=
  ⟨by decide, by decide,
    C8_state_invariants c8acts [(0, 2)] (some 10) emptySt 1 (by decide) (by decide)⟩

end Capacity

